import Mathlib

/-!
Verification development for the Collecta worker
(src/worker/app/{chunking.py, main.py, es.py, extractors.py}).

Strings are modelled as `List Char`; Python `int` parameters that may be
negative are modelled as `Int`; the search index is modelled as an optional
list of documents (`none` = the index has not been created yet); external
collaborators (file extraction, the sentence-transformer encoder, the live
search engine and the redis stream) are modelled as explicit outcome
parameters ("ports").  The Python `while` loop of the chunker carries no
termination guarantee, so it is embedded with explicit fuel and an `Option`
result (`none` = the loop did not finish within the given fuel).
-/

set_option maxHeartbeats 1000000

namespace Collecta

/-- Whitespace recognized by Python `str.strip` (ASCII subset: space, tab,
newline, carriage return, vertical tab, form feed). -/
def isPySpace (c : Char) : Bool :=
  c == ' ' || c == '\t' || c == '\n' || c == '\r' || c == '\x0b' || c == '\x0c'

/-- Python `s.lstrip()`. -/
def lstrip (s : List Char) : List Char := s.dropWhile isPySpace

/-- Python `s.rstrip()`. -/
def rstrip (s : List Char) : List Char := (s.reverse.dropWhile isPySpace).reverse

/-- Python `s.strip()`. -/
def strip (s : List Char) : List Char := rstrip (lstrip s)

/-- Python `t.replace` of a CRLF pair by a newline (left-to-right,
non-overlapping). -/
def replaceCRLF : List Char → List Char
  | [] => []
  | [c] => [c]
  | c :: d :: rest =>
    if c = '\r' ∧ d = '\n' then '\n' :: replaceCRLF rest
    else c :: replaceCRLF (d :: rest)

/-- Python `t.replace` of a lone CR by a newline. -/
def replaceCR (s : List Char) : List Char :=
  s.map fun c => if c == '\r' then '\n' else c

/-- Python `t.split` on a newline separator. -/
def splitNl : List Char → List (List Char)
  | [] => [[]]
  | c :: rest =>
    if c == '\n' then [] :: splitNl rest
    else
      match splitNl rest with
      | [] => [[c]]
      | l :: ls => (c :: l) :: ls

/-- Python newline `join`. -/
def joinNl : List (List Char) → List Char
  | [] => []
  | [l] => l
  | l :: ls => l ++ '\n' :: joinNl ls

/-- `normalize_text` from src/worker/app/chunking.py: unify line endings,
strip every line, drop empty lines, rejoin with newlines, strip overall. -/
def normalize_text (text : List Char) : List Char :=
  let t := replaceCR (replaceCRLF text)
  let lines := (splitNl t).map strip
  let kept := lines.filter fun ln => !ln.isEmpty
  strip (joinNl kept)

/-- The `Chunk` dataclass from src/worker/app/chunking.py. -/
structure Chunk where
  text : List Char
  page_index : Option Int
  position : Nat
deriving DecidableEq

/-- Python slice `t[i:e]` where the lower index is a clamped non-negative
index (as arises in the chunker loop) and the upper index is a Python int:
a negative upper index counts from the end of the list. -/
def pySlice (t : List Char) (i : Nat) (e : Int) : List Char :=
  let n := t.length
  let e2 : Nat := if e < 0 then ((n : Int) + e).toNat else min e.toNat n
  (t.take e2).drop i

/-- The `while i < n` loop of `chunk_text_by_chars`
(src/worker/app/chunking.py lines 41-49), embedded with explicit fuel:
the Python loop has no built-in termination guarantee, and `none` means the
loop did not finish within the given fuel.  State: current window start `i`,
running position counter `pos`, accumulated chunks. -/
def chunkLoop (t : List Char) (max_chars overlap_chars : Int) (page_index : Option Int) :
    Nat → Nat → Nat → List Chunk → Option (List Chunk)
  | 0, _, _, _ => none
  | fuel + 1, i, pos, chunks =>
    let n := t.length
    if i < n then
      let e : Int := min ((i : Int) + max_chars) (n : Int)
      let piece := strip (pySlice t i e)
      let chunks2 := if !piece.isEmpty then chunks ++ [⟨piece, page_index, pos⟩] else chunks
      let pos2 := if !piece.isEmpty then pos + 1 else pos
      if (n : Int) ≤ e then some chunks2
      else chunkLoop t max_chars overlap_chars page_index fuel (e - overlap_chars).toNat pos2 chunks2
    else some chunks

/-- The tail-merge post-processing of `chunk_text_by_chars`
(src/worker/app/chunking.py lines 51-58): when at least two chunks were
produced and the last one is shorter than `min_chars`, merge it into its
predecessor (newline separator, then strip) and drop the last entry,
keeping the predecessor's position and page index. -/
def mergeTail (min_chars : Int) (chunks : List Chunk) : List Chunk :=
  match chunks.getLast?, chunks.dropLast.getLast? with
  | some last, some prev =>
    if (last.text.length : Int) < min_chars then
      chunks.dropLast.dropLast ++
        [⟨strip (prev.text ++ '\n' :: last.text), prev.page_index, prev.position⟩]
    else chunks
  | _, _ => chunks

/-- `chunk_text_by_chars` from src/worker/app/chunking.py, with explicit
fuel for the sliding-window loop (`none` = the loop did not terminate
within the fuel). -/
def chunk_text_by_chars (fuel : Nat) (text : List Char)
    (max_chars min_chars overlap_chars : Int)
    (page_index : Option Int) (start_position : Nat) : Option (List Chunk) :=
  let t := normalize_text text
  if t.isEmpty then some []
  else if (t.length : Int) ≤ max_chars then
    some [⟨t, page_index, start_position⟩]
  else
    (chunkLoop t max_chars overlap_chars page_index fuel 0 start_position []).map
      (mergeTail min_chars)

/-- One Elasticsearch document as built by `build_chunk_docs` and
`index_link` in src/worker/app/main.py.  The embedding vector is modelled by
its dimension only (the spec makes only the vector shape a contract). -/
structure EsDoc where
  resource_id : String
  resource_type : String
  domain : Option String
  tags : List String
  status : String
  is_pinned : Bool
  created_at : Option String
  source_kind : String
  page_index : Option Int
  position : Nat
  chunk_text : List Char
  embedding : Option Nat
deriving DecidableEq

/-- The search index state: `none` = the index has never been created. -/
abbrev ESState := Option (List EsDoc)

/-- Errors raised by the search-engine client.  `indexNotFound` models the
exception whose string form contains "index_not_found_exception", the kind
that `delete_by_resource_id` recognizes by substring inspection. -/
inductive ESErr where
  | indexNotFound
  | unreachable (msg : String)
deriving DecidableEq

/-- Raw query-based delete on the engine (`es.delete_by_query` with a term
query on `resource_id`, synchronous refresh): raises when the index does not
exist, otherwise removes every matching document. -/
def es_delete_by_query (rid : String) : ESState → Except ESErr ESState
  | none => .error .indexNotFound
  | some docs => .ok (some (docs.filter fun d => d.resource_id != rid))

/-- `delete_by_resource_id` from src/worker/app/main.py lines 105-118: a
query delete that treats a missing index as success, the normal state
before first indexing. -/
def delete_by_resource_id (resource_id : Int) (s : ESState) : Except ESErr ESState :=
  match es_delete_by_query (toString resource_id) s with
  | .error .indexNotFound => .ok s
  | .error e => .error e
  | .ok s2 => .ok s2

/-- `bulk_index` from src/worker/app/es.py lines 13-25: an empty document
list returns without touching the engine; otherwise the documents are
appended (the engine creates the index on first write). -/
def bulk_index (docs : List EsDoc) (s : ESState) : Except ESErr ESState :=
  if docs.isEmpty then .ok s
  else
    match s with
    | none => .ok (some docs)
    | some existing => .ok (some (existing ++ docs))

/-- The replace-by-resource protocol of the indexing handlers
(src/worker/app/main.py lines 363-366 and 470-472): delete the resource's
documents, then bulk-write the new ones. -/
def replaceResource (resource_id : Int) (docs : List EsDoc) (s : ESState) :
    Except ESErr ESState := do
  let s2 ← delete_by_resource_id resource_id s
  bulk_index docs s2

/-- The documents currently indexed for one resource. -/
def chunkSetOf (s : ESState) (resource_id : Int) : List EsDoc :=
  match s with
  | none => []
  | some docs => docs.filter fun d => d.resource_id == toString resource_id

/-- `ChunkingOptions` from src/worker/app/main.py. -/
structure ChunkingOptions where
  max_chars : Int := 2500
  min_chars : Int := 300
  overlap_chars : Int := 200

/-- `EmbeddingOptions` from src/worker/app/main.py (default enabled flag as
in the default environment configuration). -/
structure EmbeddingOptions where
  enabled : Bool := true
  model : Option String := none
  dim : Option Nat := none

/-- `IndexOptions` from src/worker/app/main.py. -/
structure IndexOptions where
  chunking : ChunkingOptions := {}
  embedding : EmbeddingOptions := {}

/-- `EMBEDDING_DIM` under the default environment configuration. -/
def EMBEDDING_DIM : Nat := 1024

/-- `EMBEDDING_MODEL_NAME` under the default environment configuration. -/
def EMBEDDING_MODEL_NAME : String := "dragonkue/BGE-m3-ko"

/-- Resource-level metadata shared by the index requests. -/
structure ResourceMeta where
  resource_id : Int
  resource_type : String
  domain : Option String
  tags : List String
  status : String
  is_pinned : Bool
  created_at : Option String

/-- One chunk merged with resource metadata into an index document (the
dict built in `build_chunk_docs`, src/worker/app/main.py lines 236-252). -/
def toDoc (meta : ResourceMeta) (source_kind : String) (c : Chunk) : EsDoc :=
  { resource_id := toString meta.resource_id
    resource_type := meta.resource_type
    domain := meta.domain
    tags := meta.tags
    status := meta.status
    is_pinned := meta.is_pinned
    created_at := meta.created_at
    source_kind := source_kind
    page_index := c.page_index
    position := c.position
    chunk_text := c.text
    embedding := none }

/-- The per-segment chunk lists produced by the loop of `build_chunk_docs`
(src/worker/app/main.py lines 226-253): each segment is chunked with
`start_position` continuing from the running total of chunks emitted by the
prior segments. -/
def build_chunk_groups (fuel : Nat) (chunking : ChunkingOptions) :
    List (Option Int × List Char) → Nat → Option (List (List Chunk))
  | [], _ => some []
  | (page_index, text) :: rest, pos => do
    let cs ← chunk_text_by_chars fuel text chunking.max_chars chunking.min_chars
      chunking.overlap_chars page_index pos
    let more ← build_chunk_groups fuel chunking rest (pos + cs.length)
    pure (cs :: more)

/-- `build_chunk_docs` from src/worker/app/main.py lines 205-255: the
flattened documents with resource metadata merged in, and the warning list,
which this function never appends to. -/
def build_chunk_docs (fuel : Nat) (meta : ResourceMeta) (source_kind : String)
    (segments : List (Option Int × List Char)) (chunking : ChunkingOptions) :
    Option (List EsDoc × List String) :=
  (build_chunk_groups fuel chunking segments 0).map
    fun groups => ((groups.flatten).map (toDoc meta source_kind), [])

/-- One stream entry as seen by the outbox consumer: the optional
`event_type` field and the JSON decode of the `payload` field, modelled by
its outcome (an `Except.error` is a raised decode exception; the decoded
object is represented by its optional integer `resource_id`). -/
structure OutboxEntry where
  message_id : String
  event_type : Option String
  payload : Except String (Option Int)

/-- Observable effects of handling one stream entry. -/
inductive ConsumerAction where
  | delete (resource_id : Int)
  | ack (message_id : String)
deriving DecidableEq

/-- Handling of one entry in the consumer loop of `consume_outbox_events`
(src/worker/app/main.py lines 186-196), the downstream
`delete_by_resource_id` call modelled by its outcome `del`: returns the
actions performed and the raised error, if any.  A raised error aborts the
handling before the acknowledge is sent; the enclosing `except` blocks of
the loop log it and keep the loop alive. -/
def handle_outbox_entry (del : Int → Except String Unit) (e : OutboxEntry) :
    List ConsumerAction × Option String :=
  if e.event_type = some "RESOURCE_DELETED" then
    match e.payload with
    | .error msg => ([], some msg)
    | .ok none => ([.ack e.message_id], none)
    | .ok (some rid) =>
      match del rid with
      | .error msg => ([], some msg)
      | .ok _ => ([.delete rid, .ack e.message_id], none)
  else ([.ack e.message_id], none)

/-- Outcomes of the external collaborators used by one synchronous request:
the format extractors (src/worker/app/extractors.py), the
sentence-transformer encoder (vectors modelled by their dimensions, model
loading folded into the call outcome), and the live engine reached through
`delete_by_resource_id` and `bulk_index`.  An `Except.error` is a raised
exception. -/
structure Ports where
  extract_pdf : Except String (List (List Char) × List String)
  extract_docx : Except String ((List Char) × List String)
  extract_pptx : Except String (List (List Char) × List String)
  extract_txt : Except String ((List Char) × List String)
  encode : List (List Char) → Except String (List Nat)
  es_delete : Except String Unit
  es_bulk : Except String Unit

/-- `embed_texts` from src/worker/app/main.py lines 153-161: empty input
short-circuits; otherwise the encoder runs and a mismatch between the first
returned vector's width and `expected_dim` raises a ValueError. -/
def embed_texts (ports : Ports) (texts : List (List Char)) (expected_dim : Option Nat) :
    Except String (List Nat) :=
  if texts.isEmpty then .ok []
  else do
    let out ← ports.encode texts
    match expected_dim, out.head? with
    | some d, some d0 =>
      if d0 ≠ d then
        .error ("embedding dim mismatch: expected " ++ toString d ++ ", got " ++ toString d0)
      else .ok out
    | _, _ => .ok out

/-- Python truthiness fallback `x or default` on an optional integer
(zero is falsy). -/
def orNat (x : Option Nat) (dflt : Nat) : Nat :=
  match x with
  | some v => if v = 0 then dflt else v
  | none => dflt

/-- Python truthiness fallback `x or default` on an optional string
(the empty string is falsy). -/
def orStr (x : Option String) (dflt : String) : String :=
  match x with
  | some v => if v = "" then dflt else v
  | none => dflt

/-- The extension part of `os.path.splitext` (external stdlib helper used
by `detect_mime_from_ext`): the suffix of the final path component from its
last dot, where leading dots of the component do not count. -/
def splitextExt (fp : List Char) : List Char :=
  let base := (fp.reverse.takeWhile fun c => c != '/').reverse
  let lead := base.takeWhile fun c => c == '.'
  let core := base.drop lead.length
  if core.contains '.' then
    '.' :: (core.reverse.takeWhile fun c => c != '.').reverse
  else []

/-- `detect_mime_from_ext` from src/worker/app/extractors.py lines 11-19. -/
def detect_mime_from_ext (file_path : List Char) : Option String :=
  let ext := (splitextExt file_path).map Char.toLower
  if ext = ".pdf".toList then some "application/pdf"
  else if ext = ".docx".toList then
    some "application/vnd.openxmlformats-officedocument.wordprocessingml.document"
  else if ext = ".pptx".toList then
    some "application/vnd.openxmlformats-officedocument.presentationml.presentation"
  else if ext = ".txt".toList then some "text/plain"
  else if ext = ".md".toList then some "text/markdown"
  else none

/-- Python substring containment, `pat in s`. -/
def containsSub (pat : List Char) : List Char → Bool
  | [] => pat.isEmpty
  | c :: rest => pat.isPrefixOf (c :: rest) || containsSub pat rest

/-- Python space-separated `join`. -/
def joinSpace : List (List Char) → List Char
  | [] => []
  | [l] => l
  | l :: ls => l ++ ' ' :: joinSpace ls

/-- `DocumentInfo` from src/worker/app/main.py. -/
structure DocumentInfo where
  file_path : List Char
  mime_type : Option String := none
  file_name : Option String := none

/-- `IndexDocumentRequest` from src/worker/app/main.py. -/
structure IndexDocumentRequest where
  job_id : String
  resource_id : Int
  resource_type : String := "document"
  domain : Option String := none
  tags : List String := []
  status : String := "todo"
  is_pinned : Bool := false
  created_at : Option String := none
  document : DocumentInfo
  options : IndexOptions := {}

/-- The `link` JSON object of an index-link request: its three recognized
optional fields; a `tags` value that is not a list is modelled as `none`,
matching the isinstance guard. -/
structure LinkMeta where
  title : Option (List Char) := none
  memo : Option (List Char) := none
  tags : Option (List (List Char)) := none

/-- `IndexLinkRequest` from src/worker/app/main.py. -/
structure IndexLinkRequest where
  job_id : String
  resource_id : Int
  resource_type : String := "link"
  domain : Option String := none
  tags : List String := []
  status : String := "todo"
  is_pinned : Bool := false
  created_at : Option String := none
  link : LinkMeta
  options : IndexOptions := {}

/-- `EmbedRequest` from src/worker/app/main.py. -/
structure EmbedRequest where
  texts : Option (List (List Char)) := none
  text : Option (List Char) := none
  model : Option String := none
  dim : Option Nat := none

/-- The response dict of the two index endpoints; summary fields a given
return site omits are `none`, and `errors` holds (code, message) pairs. -/
structure IndexResponse where
  job_id : String
  resource_id : Int
  status : String
  source_kind : Option String
  chunk_count : Nat
  chars_extracted : Option Nat
  warnings : List String
  errors : List (String × String)
deriving DecidableEq

/-- The response dict of the embed endpoint; the short-circuit return for
empty input carries no model or dim field. -/
structure EmbedResponse where
  embeddings : List Nat
  model : Option String
  dim : Option Nat
deriving DecidableEq

/-- The resource metadata fields of an index-document request. -/
def metaOfDocumentRequest (req : IndexDocumentRequest) : ResourceMeta :=
  { resource_id := req.resource_id
    resource_type := req.resource_type
    domain := req.domain
    tags := req.tags
    status := req.status
    is_pinned := req.is_pinned
    created_at := req.created_at }

/-- The failure response shape shared by the early-return sites of
`index_document` (each site fills status "failed", one coded error, the
warnings collected so far, and `chars_extracted` when already computed). -/
def failDocResponse (req : IndexDocumentRequest) (code msg : String)
    (warnings : List String) (chars : Option Nat) : IndexResponse :=
  { job_id := req.job_id
    resource_id := req.resource_id
    status := "failed"
    source_kind := none
    chunk_count := 0
    chars_extracted := chars
    warnings := warnings
    errors := [(code, msg)] }

/-- `index_document` from src/worker/app/main.py lines 272-389, with the
chunker's fuel made explicit: a `none` result means the request never
returns because the chunking loop does not terminate. -/
def index_document (fuel : Nat) (ports : Ports) (req : IndexDocumentRequest) :
    Option IndexResponse :=
  let fp := req.document.file_path
  let mime : String := orStr req.document.mime_type ((detect_mime_from_ext fp).getD "")
  let lower := fp.map Char.toLower
  let extracted : Except String (Option (List (Option Int × List Char) × List String)) :=
    if mime = "application/pdf" then
      (ports.extract_pdf).map fun pw =>
        some (pw.1.enum.map fun it => (some (it.1 : Int), it.2), pw.2)
    else if containsSub "wordprocessingml.document".toList mime.toList then
      (ports.extract_docx).map fun tw => some ([(none, tw.1)], tw.2)
    else if containsSub "presentationml.presentation".toList mime.toList then
      (ports.extract_pptx).map fun pw =>
        some (pw.1.enum.map fun it => (some (it.1 : Int), it.2), pw.2)
    else if mime = "text/plain" ∨ mime = "text/markdown" ∨
        ".txt".toList.isSuffixOf lower ∨ ".md".toList.isSuffixOf lower then
      (ports.extract_txt).map fun tw => some ([(none, tw.1)], tw.2)
    else .ok none
  match extracted with
  | .ok none =>
    some (failDocResponse req "UNSUPPORTED_FORMAT" ("mime_type not supported: " ++ mime)
      [] none)
  | .error msg => some (failDocResponse req "EXTRACT_ERROR" msg [] none)
  | .ok (some (segments, w)) =>
    let warnings := w
    match build_chunk_docs fuel (metaOfDocumentRequest req) "document_text" segments
        req.options.chunking with
    | none => none
    | some (docs0, _) =>
      let chars_extracted := (docs0.map fun d => d.chunk_text.length).sum
      let embedded : Except String (List EsDoc) :=
        if req.options.embedding.enabled && !docs0.isEmpty then
          (embed_texts ports (docs0.map fun d => d.chunk_text)
            (some (orNat req.options.embedding.dim EMBEDDING_DIM))).map
            fun vectors =>
              (docs0.zip vectors).map (fun dv => { dv.1 with embedding := some dv.2 }) ++
                docs0.drop vectors.length
        else .ok docs0
      match embedded with
      | .error msg =>
        some (failDocResponse req "EMBEDDING_ERROR" msg warnings (some chars_extracted))
      | .ok docs =>
        match (do ports.es_delete; ports.es_bulk : Except String Unit) with
        | .error msg =>
          some (failDocResponse req "ES_INDEX_ERROR" msg warnings (some chars_extracted))
        | .ok _ =>
          some { job_id := req.job_id
                 resource_id := req.resource_id
                 status := if warnings.isEmpty then "completed" else "completed_with_warnings"
                 source_kind := some "document_text"
                 chunk_count := docs.length
                 chars_extracted := some chars_extracted
                 warnings := warnings
                 errors := [] }

/-- The failure response shape shared by the early-return sites of
`index_link`. -/
def failLinkResponse (req : IndexLinkRequest) (code msg : String)
    (warnings : List String) : IndexResponse :=
  { job_id := req.job_id
    resource_id := req.resource_id
    status := "failed"
    source_kind := none
    chunk_count := 0
    chars_extracted := none
    warnings := warnings
    errors := [(code, msg)] }

/-- `index_link` from src/worker/app/main.py lines 412-490.  The single
document it writes reaches the engine only through the ports, so only its
`chunk_text` (which also feeds the response summary) is kept explicit. -/
def index_link (ports : Ports) (req : IndexLinkRequest) : IndexResponse :=
  let title := strip (req.link.title.getD [])
  let memo := strip (req.link.memo.getD [])
  let link_tags := req.link.tags.getD []
  let chunk_text := normalize_text (strip (joinSpace [title, memo, joinSpace link_tags]))
  if chunk_text.isEmpty then
    failLinkResponse req "EMPTY_TEXT" "link meta is empty" []
  else
    let embedded : Except String (Option Nat) :=
      if req.options.embedding.enabled then
        (embed_texts ports [chunk_text]
          (some (orNat req.options.embedding.dim EMBEDDING_DIM))).map
          fun vectors => vectors.head?
      else .ok none
    match embedded with
    | .error msg => failLinkResponse req "EMBEDDING_ERROR" msg []
    | .ok _ =>
      match (do ports.es_delete; ports.es_bulk : Except String Unit) with
      | .error msg => failLinkResponse req "ES_INDEX_ERROR" msg []
      | .ok _ =>
        { job_id := req.job_id
          resource_id := req.resource_id
          status := "completed"
          source_kind := some "link_meta"
          chunk_count := 1
          chars_extracted := some chunk_text.length
          warnings := []
          errors := [] }

/-- The `embed` endpoint from src/worker/app/main.py lines 392-409.  Unlike
the index endpoints it wraps `embed_texts` in no try/except, so a raised
error (`Except.error`) propagates to the caller unhandled. -/
def embed_endpoint (ports : Ports) (req : EmbedRequest) : Except String EmbedResponse :=
  let texts0 := req.texts.getD []
  let texts :=
    if texts0.isEmpty then
      match req.text with
      | some t => if t.isEmpty then [] else [t]
      | none => []
    else texts0
  if texts.isEmpty then .ok { embeddings := [], model := none, dim := none }
  else do
    let vectors ← embed_texts ports texts (some (orNat req.dim EMBEDDING_DIM))
    .ok { embeddings := vectors
          model := some (orStr req.model EMBEDDING_MODEL_NAME)
          dim := some (orNat req.dim EMBEDDING_DIM) }

/-- Well-formedness of a synchronous index response: a terminal status and,
on failure, exactly one machine-readable error code from the documented
set. -/
def respWF (r : IndexResponse) : Prop :=
  (r.status = "completed" ∨ r.status = "completed_with_warnings" ∨ r.status = "failed") ∧
  (r.status = "failed" → ∃ code msg, r.errors = [(code, msg)] ∧
    (code = "UNSUPPORTED_FORMAT" ∨ code = "EXTRACT_ERROR" ∨ code = "EMBEDDING_ERROR" ∨
     code = "ES_INDEX_ERROR" ∨ code = "EMPTY_TEXT"))

example : normalize_text " a \r\n\r b \n\n".toList = "a\nb".toList := by decide

/-! Helper lemmas about the text layer on uniform (replicated) texts. -/

theorem dropWhile_replicate_of_not_space {c : Char} (h : isPySpace c = false) (n : Nat) :
    (List.replicate n c).dropWhile isPySpace = List.replicate n c := by
  cases n with
  | zero => rfl
  | succ m => simp [List.replicate_succ, List.dropWhile_cons, h]

theorem strip_replicate {c : Char} (h : isPySpace c = false) (n : Nat) :
    strip (List.replicate n c) = List.replicate n c := by
  unfold strip lstrip rstrip
  rw [dropWhile_replicate_of_not_space h, List.reverse_replicate,
    dropWhile_replicate_of_not_space h, List.reverse_replicate]

theorem replaceCRLF_of_no_cr {l : List Char} (h : '\r' ∉ l) : replaceCRLF l = l := by
  induction l with
  | nil => rfl
  | cons c rest ih =>
    have hc : c ≠ '\r' := fun hc => h (hc ▸ List.mem_cons_self c rest)
    have hrest : '\r' ∉ rest := fun hm => h (List.mem_cons_of_mem c hm)
    cases rest with
    | nil => rfl
    | cons d rest2 =>
      rw [replaceCRLF, if_neg (fun hcd => hc hcd.1), ih hrest]

theorem replaceCR_of_no_cr {l : List Char} (h : '\r' ∉ l) : replaceCR l = l := by
  induction l with
  | nil => rfl
  | cons c rest ih =>
    have hc : c ≠ '\r' := fun hc => h (hc ▸ List.mem_cons_self c rest)
    have hrest : '\r' ∉ rest := fun hm => h (List.mem_cons_of_mem c hm)
    have ih2 := ih hrest
    simp only [replaceCR, List.map_cons, beq_iff_eq] at ih2 ⊢
    simp [hc, ih2]

theorem splitNl_of_no_nl {l : List Char} (h : '\n' ∉ l) : splitNl l = [l] := by
  induction l with
  | nil => rfl
  | cons c rest ih =>
    have hc : c ≠ '\n' := fun hc => h (hc ▸ List.mem_cons_self c rest)
    have hrest : '\n' ∉ rest := fun hm => h (List.mem_cons_of_mem c hm)
    rw [splitNl, if_neg (by simp [hc]), ih hrest]

theorem normalize_replicate {c : Char} (hw : isPySpace c = false) (n : Nat) :
    normalize_text (List.replicate (n + 1) c) = List.replicate (n + 1) c := by
  have hcr : '\r' ∉ List.replicate (n + 1) c := by
    intro hm
    rcases List.eq_of_mem_replicate hm with rfl
    simp [isPySpace] at hw
  have hnl : '\n' ∉ List.replicate (n + 1) c := by
    intro hm
    rcases List.eq_of_mem_replicate hm with rfl
    simp [isPySpace] at hw
  simp only [normalize_text]
  rw [replaceCRLF_of_no_cr hcr, replaceCR_of_no_cr hcr, splitNl_of_no_nl hnl]
  simp only [List.map_cons, List.map_nil, strip_replicate hw]
  have hne : (List.replicate (n + 1) c).isEmpty = false := by
    simp [List.isEmpty_iff]
  rw [List.filter_cons]
  simp only [hne, Bool.not_false, if_true, List.filter_nil]
  show strip (joinNl [List.replicate (n + 1) c]) = _
  rw [show joinNl [List.replicate (n + 1) c] = List.replicate (n + 1) c from rfl,
    strip_replicate hw]

theorem pySlice_replicate (c : Char) (n i : Nat) (e : Int) (he : 0 ≤ e) :
    pySlice (List.replicate n c) i e = List.replicate (min e.toNat n - i) c := by
  simp only [pySlice, List.length_replicate, if_neg (not_lt.mpr he),
    List.take_replicate, List.drop_replicate]
  congr 1
  omega

theorem replicate_ne_nil {c : Char} {n : Nat} (h : 0 < n) : List.replicate n c ≠ [] := by
  intro he
  have h2 := congrArg List.length he
  rw [List.length_replicate] at h2
  simp at h2
  omega

/-- One loop iteration that emits a chunk and continues. -/
theorem chunkLoop_cont (t : List Char) (m ov : Int) (pi : Option Int)
    (fuel i pos : Nat) (acc : List Chunk) (e : Int) (j : Nat) (piece : List Char)
    (hi : i < t.length)
    (he : min ((i : Int) + m) (t.length : Int) = e)
    (hpiece : strip (pySlice t i e) = piece)
    (hne : piece ≠ [])
    (hcont : ¬ (t.length : Int) ≤ e)
    (hj : (e - ov).toNat = j) :
    chunkLoop t m ov pi (fuel + 1) i pos acc =
      chunkLoop t m ov pi fuel j (pos + 1) (acc ++ [⟨piece, pi, pos⟩]) := by
  rw [chunkLoop]
  simp only [he, hpiece, hj, if_pos hi, if_neg hcont]
  have hempty : piece.isEmpty = false := by
    cases hp : piece with
    | nil => exact absurd hp hne
    | cons a l => rfl
  simp [hempty]

theorem strip_pySlice_replicate {c : Char} (hw : isPySpace c = false)
    (n i : Nat) (e : Int) (he : 0 ≤ e) :
    strip (pySlice (List.replicate n c) i e) = List.replicate (min e.toNat n - i) c := by
  rw [pySlice_replicate c n i e he, strip_replicate hw]

/-- One loop iteration that emits a chunk and stops (window reached the end). -/
theorem chunkLoop_last (t : List Char) (m ov : Int) (pi : Option Int)
    (fuel i pos : Nat) (acc : List Chunk) (e : Int) (piece : List Char)
    (hi : i < t.length)
    (he : min ((i : Int) + m) (t.length : Int) = e)
    (hpiece : strip (pySlice t i e) = piece)
    (hne : piece ≠ [])
    (hend : (t.length : Int) ≤ e) :
    chunkLoop t m ov pi (fuel + 1) i pos acc = some (acc ++ [⟨piece, pi, pos⟩]) := by
  rw [chunkLoop]
  simp only [he, hpiece, if_pos hi, if_pos hend]
  have hempty : piece.isEmpty = false := by
    cases hp : piece with
    | nil => exact absurd hp hne
    | cons a l => rfl
  simp [hempty]

example : chunk_text_by_chars 1 "  hi  ".toList 2500 300 200 none 7 =
    some [⟨"hi".toList, none, 7⟩] := by decide

example : chunk_text_by_chars 2 "aaaaaaa".toList 5 3 0 none 0 =
    some [⟨"aaaaa\naa".toList, none, 0⟩] := by decide

/-- C8: for a normalized 6000-character text chunked with `max_chars = 2500`,
`min_chars = 300`, `overlap_chars = 200`, the window start advances by
`max_chars - overlap_chars = 2300` per step and exactly three raw windows
with boundaries `[0, 2500)`, `[2300, 4800)`, `[4600, 6000)` are produced
before the tail-merge logic applies (which here leaves them unchanged). -/
theorem chunk_bound_6000 :
    normalize_text (List.replicate 6000 'a') = List.replicate 6000 'a' ∧
    chunkLoop (List.replicate 6000 'a') 2500 200 none 3 0 0 [] =
      some [⟨pySlice (List.replicate 6000 'a') 0 2500, none, 0⟩,
            ⟨pySlice (List.replicate 6000 'a') 2300 4800, none, 1⟩,
            ⟨pySlice (List.replicate 6000 'a') 4600 6000, none, 2⟩] ∧
    chunk_text_by_chars 3 (List.replicate 6000 'a') 2500 300 200 none 0 =
      some [⟨List.replicate 2500 'a', none, 0⟩,
            ⟨List.replicate 2500 'a', none, 1⟩,
            ⟨List.replicate 1400 'a', none, 2⟩] := by
  have ha : isPySpace 'a' = false := by decide
  have hlen : (List.replicate 6000 'a').length = 6000 := List.length_replicate 6000 'a'
  have hnorm : normalize_text (List.replicate 6000 'a') = List.replicate 6000 'a' := by
    have h := normalize_replicate ha 5999
    rwa [show (5999 : Nat) + 1 = 6000 from rfl] at h
  have hp0 : strip (pySlice (List.replicate 6000 'a') 0 2500) = List.replicate 2500 'a' := by
    rw [strip_pySlice_replicate ha 6000 0 2500 (by norm_num),
      show ((2500 : Int).toNat ⊓ 6000 - 0 : Nat) = 2500 from by omega]
  have hp1 : strip (pySlice (List.replicate 6000 'a') 2300 4800) = List.replicate 2500 'a' := by
    rw [strip_pySlice_replicate ha 6000 2300 4800 (by norm_num),
      show ((4800 : Int).toNat ⊓ 6000 - 2300 : Nat) = 2500 from by omega]
  have hp2 : strip (pySlice (List.replicate 6000 'a') 4600 6000) = List.replicate 1400 'a' := by
    rw [strip_pySlice_replicate ha 6000 4600 6000 (by norm_num),
      show ((6000 : Int).toNat ⊓ 6000 - 4600 : Nat) = 1400 from by omega]
  have hloop : chunkLoop (List.replicate 6000 'a') 2500 200 none 3 0 0 [] =
      some [⟨List.replicate 2500 'a', none, 0⟩, ⟨List.replicate 2500 'a', none, 1⟩,
            ⟨List.replicate 1400 'a', none, 2⟩] := by
    have s1 := chunkLoop_cont (List.replicate 6000 'a') 2500 200 none 2 0 0 []
      2500 2300 (List.replicate 2500 'a')
      (by rw [hlen]; norm_num) (by rw [hlen]; omega) hp0
      (replicate_ne_nil (by norm_num)) (by rw [hlen]; omega) (by omega)
    have s2 := chunkLoop_cont (List.replicate 6000 'a') 2500 200 none 1 2300 1
      [⟨List.replicate 2500 'a', none, 0⟩] 4800 4600 (List.replicate 2500 'a')
      (by rw [hlen]; norm_num) (by rw [hlen]; omega) hp1
      (replicate_ne_nil (by norm_num)) (by rw [hlen]; omega) (by omega)
    have s3 := chunkLoop_last (List.replicate 6000 'a') 2500 200 none 0 4600 2
      [⟨List.replicate 2500 'a', none, 0⟩, ⟨List.replicate 2500 'a', none, 1⟩]
      6000 (List.replicate 1400 'a')
      (by rw [hlen]; norm_num) (by rw [hlen]; omega) hp2
      (replicate_ne_nil (by norm_num)) (by rw [hlen]; omega)
    calc chunkLoop (List.replicate 6000 'a') 2500 200 none 3 0 0 []
        = chunkLoop (List.replicate 6000 'a') 2500 200 none 2 2300 1
            [⟨List.replicate 2500 'a', none, 0⟩] := s1
      _ = chunkLoop (List.replicate 6000 'a') 2500 200 none 1 4600 2
            [⟨List.replicate 2500 'a', none, 0⟩, ⟨List.replicate 2500 'a', none, 1⟩] := s2
      _ = some [⟨List.replicate 2500 'a', none, 0⟩, ⟨List.replicate 2500 'a', none, 1⟩,
            ⟨List.replicate 1400 'a', none, 2⟩] := s3
  have e0 : pySlice (List.replicate 6000 'a') 0 2500 = List.replicate 2500 'a' := by
    rw [pySlice_replicate 'a' 6000 0 2500 (by norm_num),
      show ((2500 : Int).toNat ⊓ 6000 - 0 : Nat) = 2500 from by omega]
  have e1 : pySlice (List.replicate 6000 'a') 2300 4800 = List.replicate 2500 'a' := by
    rw [pySlice_replicate 'a' 6000 2300 4800 (by norm_num),
      show ((4800 : Int).toNat ⊓ 6000 - 2300 : Nat) = 2500 from by omega]
  have e2 : pySlice (List.replicate 6000 'a') 4600 6000 = List.replicate 1400 'a' := by
    rw [pySlice_replicate 'a' 6000 4600 6000 (by norm_num),
      show ((6000 : Int).toNat ⊓ 6000 - 4600 : Nat) = 1400 from by omega]
  refine ⟨hnorm, by rw [e0, e1, e2]; exact hloop, ?_⟩
  have hmerge : mergeTail 300 [⟨List.replicate 2500 'a', none, 0⟩,
      ⟨List.replicate 2500 'a', none, 1⟩, ⟨List.replicate 1400 'a', none, 2⟩] =
      [⟨List.replicate 2500 'a', none, 0⟩, ⟨List.replicate 2500 'a', none, 1⟩,
       ⟨List.replicate 1400 'a', none, 2⟩] := by
    simp only [mergeTail, List.getLast?_cons_cons, List.getLast?_singleton]
    rw [show ([⟨List.replicate 2500 'a', none, 0⟩, ⟨List.replicate 2500 'a', none, 1⟩,
      (⟨List.replicate 1400 'a', none, 2⟩ : Chunk)] : List Chunk).dropLast =
      [⟨List.replicate 2500 'a', none, 0⟩, ⟨List.replicate 2500 'a', none, 1⟩] from rfl]
    simp only [List.getLast?_cons_cons, List.getLast?_singleton]
    rw [if_neg]
    rw [List.length_replicate]
    omega
  have hR : ¬ (List.replicate 6000 'a').isEmpty = true :=
    fun h => replicate_ne_nil (c := 'a') (by norm_num) (List.isEmpty_iff.mp h)
  have hlong : ¬ ((List.replicate 6000 'a').length : Int) ≤ 2500 := by rw [hlen]; omega
  simp only [chunk_text_by_chars, hnorm]
  rw [if_neg hR, if_neg hlong, hloop]
  exact congrArg some hmerge

/-! Length lemmas on the normalizer, leading to claim C10. -/

theorem dropWhile_length_le (p : Char → Bool) (l : List Char) :
    (l.dropWhile p).length ≤ l.length := by
  induction l with
  | nil => simp
  | cons c rest ih =>
    rw [List.dropWhile_cons]
    by_cases h : p c
    · simp only [h, if_true]
      exact le_trans ih (by simp)
    · simp [h]

theorem strip_length_le (s : List Char) : (strip s).length ≤ s.length := by
  unfold strip rstrip lstrip
  calc ((s.dropWhile isPySpace).reverse.dropWhile isPySpace).reverse.length
      = ((s.dropWhile isPySpace).reverse.dropWhile isPySpace).length := by
        rw [List.length_reverse]
    _ ≤ (s.dropWhile isPySpace).reverse.length := dropWhile_length_le _ _
    _ = (s.dropWhile isPySpace).length := by rw [List.length_reverse]
    _ ≤ s.length := dropWhile_length_le _ _

theorem replaceCRLF_length_le (l : List Char) : (replaceCRLF l).length ≤ l.length := by
  suffices h : ∀ n : Nat, ∀ l : List Char, l.length ≤ n →
      (replaceCRLF l).length ≤ l.length from h l.length l le_rfl
  intro n
  induction n with
  | zero =>
    intro l hl
    match l with
    | [] => simp [replaceCRLF]
    | c :: rest => simp at hl
  | succ m ih =>
    intro l hl
    match l with
    | [] => simp [replaceCRLF]
    | [c] => simp [replaceCRLF]
    | c :: d :: rest =>
      rw [replaceCRLF]
      by_cases hcd : c = '\r' ∧ d = '\n'
      · rw [if_pos hcd]
        have h2 := ih rest (by simp only [List.length_cons] at hl ⊢; omega)
        simp only [List.length_cons]
        omega
      · rw [if_neg hcd]
        have h2 := ih (d :: rest) (by simp only [List.length_cons] at hl ⊢; omega)
        simp only [List.length_cons] at h2 ⊢
        omega

theorem splitNl_ne_nil (l : List Char) : splitNl l ≠ [] := by
  cases l with
  | nil => simp [splitNl]
  | cons c rest =>
    rw [splitNl]
    cases hc : c == '\n' with
    | true =>
      rw [if_pos rfl]
      simp
    | false =>
      rw [if_neg Bool.false_ne_true]
      cases hs : splitNl rest with
      | nil => simp
      | cons p ps => simp

theorem splitNl_sum (l : List Char) :
    ((splitNl l).map List.length).sum + (splitNl l).length = l.length + 1 := by
  induction l with
  | nil => rfl
  | cons c rest ih =>
    rw [splitNl]
    cases hc : c == '\n' with
    | true =>
      rw [if_pos rfl]
      simp only [List.map_cons, List.sum_cons, List.length_cons, List.length_nil]
      omega
    | false =>
      rw [if_neg Bool.false_ne_true]
      cases hs : splitNl rest with
      | nil => exact absurd hs (splitNl_ne_nil rest)
      | cons p ps =>
        rw [hs] at ih
        simp only [List.map_cons, List.sum_cons, List.length_cons] at ih ⊢
        omega

theorem joinNl_length (ls : List (List Char)) (h : ls ≠ []) :
    (joinNl ls).length + 1 = (ls.map List.length).sum + ls.length := by
  induction ls with
  | nil => exact absurd rfl h
  | cons a ls ih =>
    cases ls with
    | nil => simp [joinNl]
    | cons b ls2 =>
      have ih2 := ih (List.cons_ne_nil b ls2)
      rw [joinNl]
      · simp only [List.map_cons, List.sum_cons, List.length_cons,
          List.length_append] at ih2 ⊢
        omega
      · exact fun hcon => List.noConfusion hcon

theorem sum_len_filter_nonempty (ls : List (List Char)) :
    ((ls.filter fun ln => !ln.isEmpty).map List.length).sum =
      (ls.map List.length).sum := by
  induction ls with
  | nil => rfl
  | cons a ls ih =>
    rw [List.filter_cons]
    by_cases h : a.isEmpty
    · have ha : a = [] := List.isEmpty_iff.mp h
      simp [h, ha, ih]
    · have hb : (!a.isEmpty) = true := by simp [h]
      simp [hb, ih]

/-- C10: normalization never increases length. -/
theorem normalize_length_le (text : List Char) :
    (normalize_text text).length ≤ text.length := by
  simp only [normalize_text]
  set t := replaceCR (replaceCRLF text) with ht
  have htlen : t.length ≤ text.length := by
    rw [ht]
    unfold replaceCR
    rw [List.length_map]
    exact replaceCRLF_length_le text
  set parts := splitNl t with hparts
  set kept := (parts.map strip).filter fun ln => !ln.isEmpty with hkept
  have hstrip_sum : ((parts.map strip).map List.length).sum ≤ (parts.map List.length).sum := by
    rw [List.map_map]
    exact List.sum_le_sum fun p _ => strip_length_le p
  have hkept_sum : (kept.map List.length).sum ≤ (parts.map List.length).sum := by
    rw [hkept, sum_len_filter_nonempty]
    exact hstrip_sum
  have hkept_len : kept.length ≤ parts.length := by
    rw [hkept]
    exact le_trans (List.length_filter_le _ _) (by rw [List.length_map])
  have hsum : (parts.map List.length).sum + parts.length = t.length + 1 := by
    rw [hparts]
    exact splitNl_sum t
  have hjoin : (joinNl kept).length ≤ t.length := by
    by_cases hk : kept = []
    · rw [hk]
      simp [joinNl]
    · have h1 := joinNl_length kept hk
      have h2 : (1 : Nat) ≤ kept.length := by
        cases hke : kept with
        | nil => exact absurd hke hk
        | cons a ks => simp [hke]
      omega
  exact le_trans (strip_length_le _) (le_trans hjoin htlen)

/-- C2 (code bug): the chunker performs no configuration check and does not
guarantee forward progress.  With `max_chars = 1`, `overlap_chars = 1` on the
two-character text "aa", the window start stays at 0 on every iteration and
the loop never terminates, no matter how much fuel it is given. -/
theorem chunker_nonterminating (fuel : Nat) (pi : Option Int) (pos : Nat) :
    chunk_text_by_chars fuel ['a', 'a'] 1 0 1 pi pos = none := by
  have hnorm : normalize_text ['a', 'a'] = ['a', 'a'] := by decide
  have key : ∀ f : Nat, ∀ p : Nat, ∀ acc : List Chunk,
      chunkLoop ['a', 'a'] 1 1 pi f 0 p acc = none := by
    intro f
    induction f with
    | zero => intro p acc; rfl
    | succ g ih =>
      intro p acc
      rw [chunkLoop_cont ['a', 'a'] 1 1 pi g 0 p acc 1 0 ['a']
        (by decide) (by decide) (by decide) (by decide) (by decide) (by decide)]
      exact ih (p + 1) (acc ++ [⟨['a'], pi, p⟩])
  simp only [chunk_text_by_chars, hnorm]
  rw [if_neg (by decide), if_neg (by decide), key fuel pos []]
  rfl

/-- C6 counterexample: the one-character text of a single space has length at
most `max_chars = 5`, yet chunking yields no chunk at all (normalization
empties the text), not one chunk holding the normalized text. -/
theorem chunk_single_counterexample :
    ([' '] : List Char).length ≤ 5 ∧
    chunk_text_by_chars 1 [' '] 5 3 0 none 0 = some [] ∧
    chunk_text_by_chars 1 [' '] 5 3 0 none 0 ≠
      some [⟨normalize_text [' '], none, 0⟩] := by decide

/-- C6 (amended): for every text whose normalization is nonempty and whose
length is at most `max_chars`, chunking yields exactly one chunk holding the
normalized text at `start_position`. -/
theorem chunk_single (fuel : Nat) (text : List Char) (max_chars min_chars overlap_chars : Int)
    (pi : Option Int) (p : Nat)
    (hne : normalize_text text ≠ [])
    (hlen : (text.length : Int) ≤ max_chars) :
    chunk_text_by_chars fuel text max_chars min_chars overlap_chars pi p =
      some [⟨normalize_text text, pi, p⟩] := by
  have hempty : ¬ (normalize_text text).isEmpty = true :=
    fun h => hne (List.isEmpty_iff.mp h)
  have hle : ((normalize_text text).length : Int) ≤ max_chars := by
    have := normalize_length_le text
    omega
  simp only [chunk_text_by_chars]
  rw [if_neg hempty, if_pos hle]

/-- C6 witness: a concrete instance of `chunk_single`. -/
theorem chunk_single_witness :
    normalize_text ['h', 'i'] ≠ [] ∧ ((['h', 'i'] : List Char).length : Int) ≤ 2500 ∧
    chunk_text_by_chars 0 ['h', 'i'] 2500 300 200 none 4 =
      some [⟨normalize_text ['h', 'i'], none, 4⟩] :=
  ⟨by decide, by decide, chunk_single 0 ['h', 'i'] 2500 300 200 none 4 (by decide) (by decide)⟩

/-! The index replace protocol: claims C5 and C1. -/

theorem delete_by_resource_id_eval (r : Int) (s : ESState) :
    delete_by_resource_id r s =
      .ok (s.map fun l => l.filter fun d => d.resource_id != toString r) := by
  cases s <;> rfl

theorem replaceResource_eval (r : Int) (docs : List EsDoc) (s : ESState) :
    replaceResource r docs s =
      bulk_index docs (s.map fun l => l.filter fun d => d.resource_id != toString r) := by
  cases s <;> rfl

theorem filterNe_all {docs : List EsDoc} {rid : String}
    (h : ∀ d ∈ docs, d.resource_id = rid) :
    docs.filter (fun d => d.resource_id != rid) = [] := by
  rw [List.filter_eq_nil_iff]
  intro d hd
  simp [h d hd]

theorem filterEq_all {docs : List EsDoc} {rid : String}
    (h : ∀ d ∈ docs, d.resource_id = rid) :
    docs.filter (fun d => d.resource_id == rid) = docs := by
  rw [List.filter_eq_self]
  intro d hd
  simp [h d hd]

theorem filterNe_idem (l : List EsDoc) (rid : String) :
    (l.filter fun d => d.resource_id != rid).filter (fun d => d.resource_id != rid) =
      l.filter fun d => d.resource_id != rid := by
  rw [List.filter_eq_self]
  intro d hd
  exact (List.mem_filter.mp hd).2

theorem filterEq_of_filterNe (l : List EsDoc) (rid : String) :
    (l.filter fun d => d.resource_id != rid).filter (fun d => d.resource_id == rid) = [] := by
  rw [List.filter_eq_nil_iff]
  intro d hd
  have h2 := (List.mem_filter.mp hd).2
  simp at h2 ⊢
  exact h2

/-- C5: the delete step of the replace protocol succeeds as a no-op when
the underlying index does not exist, the insert step succeeds as a no-op on
an empty document list, and hence replace(R, []) on a never-created index
succeeds without error. -/
theorem delete_insert_noop :
    (∀ r : Int, delete_by_resource_id r none = .ok none) ∧
    (∀ s : ESState, bulk_index [] s = .ok s) ∧
    (∀ r : Int, replaceResource r [] none = .ok none) :=
  ⟨fun _ => rfl, fun _ => rfl, fun _ => rfl⟩

/-- C1: after a successful replace for resource R, the index holds exactly
the just-computed chunk set for R (no leftovers of a prior version);
replacing again with the same documents leaves the state identical (replace
idempotence); and the delete performed for a RESOURCE_DELETED event is
idempotent, so processing the event twice equals processing it once. -/
theorem replace_exact_and_idempotent (r : Int) (docs : List EsDoc) (s s2 : ESState)
    (hdocs : ∀ d ∈ docs, d.resource_id = toString r)
    (h : replaceResource r docs s = .ok s2) :
    chunkSetOf s2 r = docs ∧
    replaceResource r docs s2 = .ok s2 ∧
    (∀ t t2 : ESState, delete_by_resource_id r t = .ok t2 →
      delete_by_resource_id r t2 = .ok t2) := by
  have hdelIdem : ∀ t t2 : ESState, delete_by_resource_id r t = .ok t2 →
      delete_by_resource_id r t2 = .ok t2 := by
    intro t t2 ht
    rw [delete_by_resource_id_eval] at ht
    have h2 : t.map (fun l => l.filter fun d => d.resource_id != toString r) = t2 :=
      Except.ok.inj ht
    subst h2
    rw [delete_by_resource_id_eval]
    cases t with
    | none => rfl
    | some l => exact congrArg Except.ok (congrArg some (filterNe_idem l (toString r)))
  rw [replaceResource_eval] at h
  by_cases hd : docs.isEmpty
  · have hdocs_nil : docs = [] := List.isEmpty_iff.mp hd
    subst hdocs_nil
    have h2 : s.map (fun l => l.filter fun d => d.resource_id != toString r) = s2 :=
      Except.ok.inj h
    refine ⟨?_, ?_, hdelIdem⟩
    · subst h2
      cases s with
      | none => rfl
      | some l => exact filterEq_of_filterNe l (toString r)
    · rw [replaceResource_eval]
      subst h2
      cases s with
      | none => rfl
      | some l => exact congrArg Except.ok (congrArg some (filterNe_idem l (toString r)))
  · have hne : docs.isEmpty = false := by
      cases hdd : docs.isEmpty
      · rfl
      · exact absurd hdd hd
    cases s with
    | none =>
      have h2 : some docs = s2 := by
        rw [Option.map_none'] at h
        rw [bulk_index, if_neg (by rw [hne]; exact Bool.false_ne_true)] at h
        exact Except.ok.inj h
      subst h2
      refine ⟨?_, ?_, hdelIdem⟩
      · exact filterEq_all hdocs
      · rw [replaceResource_eval, Option.map_some', filterNe_all hdocs,
          bulk_index, if_neg (by rw [hne]; exact Bool.false_ne_true),
          List.nil_append]
    | some l =>
      have h2 : some (l.filter (fun d => d.resource_id != toString r) ++ docs) = s2 := by
        rw [Option.map_some'] at h
        rw [bulk_index, if_neg (by rw [hne]; exact Bool.false_ne_true)] at h
        exact Except.ok.inj h
      subst h2
      refine ⟨?_, ?_, hdelIdem⟩
      · show (l.filter (fun d => d.resource_id != toString r) ++ docs).filter
          (fun d => d.resource_id == toString r) = docs
        rw [List.filter_append, filterEq_of_filterNe, filterEq_all hdocs, List.nil_append]
      · rw [replaceResource_eval, Option.map_some', List.filter_append,
          filterNe_idem, filterNe_all hdocs, List.append_nil,
          bulk_index, if_neg (by rw [hne]; exact Bool.false_ne_true)]

/-- C1 witness: a concrete replace over an index holding one document of
another resource. -/
theorem replace_exact_and_idempotent_witness :
    (∀ d ∈ [(⟨"1", "document", none, [], "todo", false, none, "document_text",
        none, 0, ['a'], none⟩ : EsDoc)], d.resource_id = toString (1 : Int)) ∧
    replaceResource 1
      [⟨"1", "document", none, [], "todo", false, none, "document_text",
        none, 0, ['a'], none⟩]
      (some [⟨"2", "document", none, [], "todo", false, none, "document_text",
        none, 0, ['b'], none⟩]) =
      .ok (some [⟨"2", "document", none, [], "todo", false, none, "document_text",
        none, 0, ['b'], none⟩,
        ⟨"1", "document", none, [], "todo", false, none, "document_text",
        none, 0, ['a'], none⟩]) ∧
    chunkSetOf (some [⟨"2", "document", none, [], "todo", false, none, "document_text",
        none, 0, ['b'], none⟩,
        ⟨"1", "document", none, [], "todo", false, none, "document_text",
        none, 0, ['a'], none⟩]) 1 =
      [⟨"1", "document", none, [], "todo", false, none, "document_text",
        none, 0, ['a'], none⟩] :=
  ⟨by decide, rfl,
    (replace_exact_and_idempotent 1
      [⟨"1", "document", none, [], "todo", false, none, "document_text",
        none, 0, ['a'], none⟩]
      (some [⟨"2", "document", none, [], "todo", false, none, "document_text",
        none, 0, ['b'], none⟩])
      (some [⟨"2", "document", none, [], "todo", false, none, "document_text",
        none, 0, ['b'], none⟩,
        ⟨"1", "document", none, [], "todo", false, none, "document_text",
        none, 0, ['a'], none⟩])
      (by decide) rfl).1⟩

/-- C4: the outbox consumer acknowledges an entry iff its handling completed
without raising; a parsed payload without resource_id is skipped and still
acknowledged; an event type other than RESOURCE_DELETED is skipped and
acknowledged; and a raising downstream delete prevents the acknowledge. -/
theorem outbox_ack_iff (del : Int → Except String Unit) (e : OutboxEntry) :
    ((ConsumerAction.ack e.message_id) ∈ (handle_outbox_entry del e).1 ↔
      (handle_outbox_entry del e).2 = none) ∧
    (e.event_type = some "RESOURCE_DELETED" → e.payload = .ok none →
      handle_outbox_entry del e = ([.ack e.message_id], none)) ∧
    (e.event_type ≠ some "RESOURCE_DELETED" →
      handle_outbox_entry del e = ([.ack e.message_id], none)) ∧
    (∀ rid msg, e.event_type = some "RESOURCE_DELETED" → e.payload = .ok (some rid) →
      del rid = .error msg → handle_outbox_entry del e = ([], some msg)) := by
  by_cases het : e.event_type = some "RESOURCE_DELETED"
  · cases hp : e.payload with
    | error msg =>
      have hh : handle_outbox_entry del e = ([], some msg) := by
        simp [handle_outbox_entry, het, hp]
      refine ⟨by rw [hh]; simp, ?_, fun h2 => absurd het h2, ?_⟩
      · intro _ h2
        exact absurd h2 (by simp)
      · intro rid msg2 _ h2 _
        exact absurd h2 (by simp)
    | ok orid =>
      cases orid with
      | none =>
        have hh : handle_outbox_entry del e = ([.ack e.message_id], none) := by
          simp [handle_outbox_entry, het, hp]
        refine ⟨by rw [hh]; simp, fun _ _ => hh, fun h2 => absurd het h2, ?_⟩
        intro rid msg2 _ h2 _
        exact absurd (Except.ok.inj h2) (by simp)
      | some rid =>
        cases hdel : del rid with
        | error m =>
          have hh : handle_outbox_entry del e = ([], some m) := by
            simp [handle_outbox_entry, het, hp, hdel]
          refine ⟨by rw [hh]; simp, ?_, fun h2 => absurd het h2, ?_⟩
          · intro _ h2
            exact absurd (Except.ok.inj h2) (by simp)
          · intro rid2 msg2 _ h2 h3
            have hr : rid = rid2 := by simpa using Except.ok.inj h2
            subst hr
            rw [hdel] at h3
            injection h3 with hm
            subst hm
            exact hh
        | ok u =>
          have hh : handle_outbox_entry del e =
              ([.delete rid, .ack e.message_id], none) := by
            simp [handle_outbox_entry, het, hp, hdel]
          refine ⟨by rw [hh]; simp, ?_, fun h2 => absurd het h2, ?_⟩
          · intro _ h2
            exact absurd (Except.ok.inj h2) (by simp)
          · intro rid2 msg2 _ h2 h3
            have hr : rid = rid2 := by simpa using Except.ok.inj h2
            subst hr
            rw [hdel] at h3
            exact absurd h3 (by simp)
  · have hh : handle_outbox_entry del e = ([.ack e.message_id], none) := by
      simp [handle_outbox_entry, het]
    exact ⟨by rw [hh]; simp, fun h2 _ => absurd h2 het, fun _ => hh,
      fun rid msg h2 _ _ => absurd h2 het⟩

/-- C4 witness: a poison entry without resource_id is acknowledged, and an
entry whose downstream delete raises is not. -/
theorem outbox_ack_iff_witness :
    handle_outbox_entry (fun _ => .ok ())
      { message_id := "m1", event_type := some "RESOURCE_DELETED", payload := .ok none } =
      ([.ack "m1"], none) ∧
    handle_outbox_entry (fun _ => .error "es down")
      { message_id := "m2", event_type := some "RESOURCE_DELETED",
        payload := .ok (some 7) } =
      ([], some "es down") :=
  ⟨(outbox_ack_iff (fun _ => .ok ())
      { message_id := "m1", event_type := some "RESOURCE_DELETED",
        payload := .ok none }).2.1 rfl rfl,
   (outbox_ack_iff (fun _ => .error "es down")
      { message_id := "m2", event_type := some "RESOURCE_DELETED",
        payload := .ok (some 7) }).2.2.2 7 "es down" rfl rfl rfl⟩

/-! Error handling at the synchronous endpoints: claim C3. -/

theorem respWF_failDoc (req : IndexDocumentRequest) (code msg : String)
    (w : List String) (ch : Option Nat)
    (hc : code = "UNSUPPORTED_FORMAT" ∨ code = "EXTRACT_ERROR" ∨
      code = "EMBEDDING_ERROR" ∨ code = "ES_INDEX_ERROR" ∨ code = "EMPTY_TEXT") :
    respWF (failDocResponse req code msg w ch) :=
  ⟨Or.inr (Or.inr rfl), fun _ => ⟨code, msg, rfl, hc⟩⟩

theorem respWF_failLink (req : IndexLinkRequest) (code msg : String)
    (w : List String)
    (hc : code = "UNSUPPORTED_FORMAT" ∨ code = "EXTRACT_ERROR" ∨
      code = "EMBEDDING_ERROR" ∨ code = "ES_INDEX_ERROR" ∨ code = "EMPTY_TEXT") :
    respWF (failLinkResponse req code msg w) :=
  ⟨Or.inr (Or.inr rfl), fun _ => ⟨code, msg, rfl, hc⟩⟩

theorem respWF_success {r : IndexResponse} (w : List String)
    (hst : r.status = (if w.isEmpty then "completed" else "completed_with_warnings")) :
    respWF r := by
  constructor
  · rw [hst]
    by_cases hw : w.isEmpty
    · rw [if_pos hw]
      exact Or.inl rfl
    · rw [if_neg hw]
      exact Or.inr (Or.inl rfl)
  · intro hf
    rw [hst] at hf
    by_cases hw : w.isEmpty
    · rw [if_pos hw] at hf
      exact absurd hf (by decide)
    · rw [if_neg hw] at hf
      exact absurd hf (by decide)

/-- C3 counterexample: the embed endpoint wraps `embed_texts` in no
try/except; with an encoder returning one vector of width 5 against a
requested dim of 4, the ValueError raised inside `embed_texts` reaches the
caller as an unhandled fault instead of a structured failure result. -/
theorem embed_unhandled_counterexample :
    embed_endpoint
      ⟨.error "u", .error "u", .error "u", .error "u",
        fun _ => .ok [5], .ok (), .ok ()⟩
      { texts := some [['h', 'i']], text := none, model := none, dim := some 4 } =
      .error "embedding dim mismatch: expected 4, got 5" := rfl

/-- C3 (amended): the index-document and index-link endpoints catch every
pipeline error and always answer with a terminal status plus a
machine-readable error code (index-document whenever its chunking loop
terminates), but the embed endpoint has no such boundary: a raised
embedding error propagates to its caller unhandled (see the
counterexample). -/
theorem index_endpoints_structured (fuel : Nat) (ports : Ports)
    (reqD : IndexDocumentRequest) (reqL : IndexLinkRequest) (resp : IndexResponse)
    (h : index_document fuel ports reqD = some resp) :
    respWF resp ∧ respWF (index_link ports reqL) := by
  constructor
  · simp only [index_document] at h
    split at h
    · have h2 := Option.some.inj h
      subst h2
      exact respWF_failDoc _ _ _ _ _ (Or.inl rfl)
    · have h2 := Option.some.inj h
      subst h2
      exact respWF_failDoc _ _ _ _ _ (Or.inr (Or.inl rfl))
    · split at h
      · exact absurd h (by simp)
      · split at h
        · have h2 := Option.some.inj h
          subst h2
          exact respWF_failDoc _ _ _ _ _ (Or.inr (Or.inr (Or.inl rfl)))
        · split at h
          · have h2 := Option.some.inj h
            subst h2
            exact respWF_failDoc _ _ _ _ _ (Or.inr (Or.inr (Or.inr (Or.inl rfl))))
          · have h2 := Option.some.inj h
            subst h2
            exact respWF_success _ rfl
  · simp only [index_link]
    split
    · exact respWF_failLink _ _ _ _ (Or.inr (Or.inr (Or.inr (Or.inr rfl))))
    · split
      · exact respWF_failLink _ _ _ _ (Or.inr (Or.inr (Or.inl rfl)))
      · split
        · exact respWF_failLink _ _ _ _ (Or.inr (Or.inr (Or.inr (Or.inl rfl))))
        · exact ⟨Or.inl rfl,
            fun hf => absurd (show ("completed" : String) = "failed" from hf) (by decide)⟩

/-- C3 witness: a concrete extraction failure surfaces as a structured
EXTRACT_ERROR response, and a concrete link request gets a well-formed
response. -/
theorem index_endpoints_structured_witness :
    index_document 0
      ⟨.error "u", .error "u", .error "u", .error "boom",
        fun _ => .ok [1024], .ok (), .ok ()⟩
      { job_id := "j", resource_id := 1,
        document := { file_path := "a.txt".toList } } =
      some (failDocResponse
        { job_id := "j", resource_id := 1,
          document := { file_path := "a.txt".toList } }
        "EXTRACT_ERROR" "boom" [] none) ∧
    (respWF (failDocResponse
        { job_id := "j", resource_id := 1,
          document := { file_path := "a.txt".toList } }
        "EXTRACT_ERROR" "boom" [] none) ∧
      respWF (index_link
        ⟨.error "u", .error "u", .error "u", .error "boom",
          fun _ => .ok [1024], .ok (), .ok ()⟩
        { job_id := "j", resource_id := 2, link := { title := some ['t'] } })) :=
  ⟨rfl,
    index_endpoints_structured 0
      ⟨.error "u", .error "u", .error "u", .error "boom",
        fun _ => .ok [1024], .ok (), .ok ()⟩
      { job_id := "j", resource_id := 1,
        document := { file_path := "a.txt".toList } }
      { job_id := "j", resource_id := 2, link := { title := some ['t'] } }
      (failDocResponse
        { job_id := "j", resource_id := 1,
          document := { file_path := "a.txt".toList } }
        "EXTRACT_ERROR" "boom" [] none)
      rfl⟩

/-! Tail-merge analysis: claim C7. -/

theorem dropWhile_eq_cons_head_false {p : Char → Bool} {l rest : List Char} {c : Char}
    (h : l.dropWhile p = c :: rest) : p c = false := by
  induction l with
  | nil => simp at h
  | cons a l2 ih =>
    rw [List.dropWhile_cons] at h
    by_cases ha : p a
    · rw [if_pos ha] at h
      exact ih h
    · rw [if_neg ha] at h
      have h2 : a = c := (List.cons.injEq a l2 c rest ▸ h).1
      subst h2
      cases hpa : p a
      · rfl
      · exact absurd hpa ha

theorem exists_append_dropWhile (p : Char → Bool) (l : List Char) :
    ∃ u, l = u ++ l.dropWhile p := by
  induction l with
  | nil => exact ⟨[], rfl⟩
  | cons a l2 ih =>
    rw [List.dropWhile_cons]
    by_cases ha : p a
    · rw [if_pos ha]
      obtain ⟨u, hu⟩ := ih
      exact ⟨a :: u, by rw [List.cons_append, ← hu]⟩
    · rw [if_neg ha]
      exact ⟨[], rfl⟩

theorem rstrip_prepend (l : List Char) : ∃ u, l = rstrip l ++ u := by
  obtain ⟨u, hu⟩ := exists_append_dropWhile isPySpace l.reverse
  refine ⟨u.reverse, ?_⟩
  have h3 := congrArg List.reverse hu
  rw [List.reverse_reverse, List.reverse_append] at h3
  unfold rstrip
  exact h3

theorem strip_head_not_space {x : List Char} {c : Char} {rest : List Char}
    (h : strip x = c :: rest) : isPySpace c = false := by
  obtain ⟨u, hu⟩ := rstrip_prepend (lstrip x)
  rw [show strip x = rstrip (lstrip x) from rfl] at h
  rw [h, List.cons_append] at hu
  exact dropWhile_eq_cons_head_false (p := isPySpace) hu

theorem strip_getLast?_not_space {x : List Char} {c : Char}
    (h : (strip x).getLast? = some c) : isPySpace c = false := by
  have h2 : ((lstrip x).reverse.dropWhile isPySpace).head? = some c := by
    have h3 : ((lstrip x).reverse.dropWhile isPySpace).head? =
        (((lstrip x).reverse.dropWhile isPySpace).reverse).getLast? := by
      rw [← List.head?_reverse, List.reverse_reverse]
    rw [h3]
    exact h
  cases hd : (lstrip x).reverse.dropWhile isPySpace with
  | nil => rw [hd] at h2; simp at h2
  | cons c2 r =>
    rw [hd] at h2
    have h3 : c2 = c := by simpa using h2
    subst h3
    exact dropWhile_eq_cons_head_false hd

theorem lstrip_no_op {l : List Char} {c : Char} (h : l.head? = some c)
    (hc : isPySpace c = false) : lstrip l = l := by
  cases l with
  | nil => simp at h
  | cons a r =>
    have h2 : a = c := by simpa using h
    subst h2
    unfold lstrip
    rw [List.dropWhile_cons, if_neg (by simp [hc])]

theorem rstrip_no_op {l : List Char} {d : Char} (h : l.getLast? = some d)
    (hd : isPySpace d = false) : rstrip l = l := by
  unfold rstrip
  have hrev : l.reverse.head? = some d := by rw [List.head?_reverse]; exact h
  cases hr : l.reverse with
  | nil => rw [hr] at hrev; simp at hrev
  | cons a r =>
    rw [hr] at hrev
    have h2 : a = d := by simpa using hrev
    subst h2
    rw [List.dropWhile_cons, if_neg (by simp [hd]), ← hr, List.reverse_reverse]

theorem strip_no_op {l : List Char} {c d : Char}
    (hh : l.head? = some c) (hc : isPySpace c = false)
    (hl : l.getLast? = some d) (hd : isPySpace d = false) : strip l = l := by
  unfold strip
  rw [lstrip_no_op hh hc, rstrip_no_op hl hd]

theorem mem_of_getLast?_eq {α : Type} : ∀ {l : List α} {a : α}, l.getLast? = some a → a ∈ l := by
  intro l
  induction l with
  | nil => intro a h; simp at h
  | cons b rest ih =>
    intro a h
    cases rest with
    | nil =>
      rw [List.getLast?_singleton] at h
      have h2 := Option.some.inj h
      subst h2
      exact List.mem_cons_self b []
    | cons c r =>
      rw [List.getLast?_cons_cons] at h
      exact List.mem_cons_of_mem b (ih h)

/-- Every chunk emitted by the sliding-window loop carries a nonempty,
already-stripped text. -/
theorem chunkLoop_texts (t : List Char) (m ov : Int) (pi : Option Int) :
    ∀ fuel i pos : Nat, ∀ acc cs : List Chunk,
      (∀ ch ∈ acc, (∃ x, ch.text = strip x) ∧ ch.text ≠ []) →
      chunkLoop t m ov pi fuel i pos acc = some cs →
      ∀ ch ∈ cs, (∃ x, ch.text = strip x) ∧ ch.text ≠ [] := by
  intro fuel
  induction fuel with
  | zero =>
    intro i pos acc cs hacc h
    exact absurd h (by simp [chunkLoop])
  | succ g ih =>
    intro i pos acc cs hacc h
    rw [chunkLoop] at h
    by_cases hi : i < t.length
    · rw [if_pos hi] at h
      by_cases hpe : (strip (pySlice t i (min ((i : Int) + m) ((t.length : Nat) : Int)))).isEmpty
      · simp only [hpe, Bool.not_true, if_false] at h
        by_cases hend : ((t.length : Nat) : Int) ≤ min ((i : Int) + m) ((t.length : Nat) : Int)
        · rw [if_pos hend] at h
          have h2 := Option.some.inj h
          subst h2
          exact hacc
        · rw [if_neg hend] at h
          exact ih _ _ _ _ hacc h
      · have hne : (strip (pySlice t i (min ((i : Int) + m) ((t.length : Nat) : Int)))) ≠ [] := by
          intro hcon
          rw [hcon] at hpe
          exact hpe rfl
        simp only [hpe, Bool.not_false, if_true] at h
        have hacc2 : ∀ ch ∈ acc ++
            [(⟨strip (pySlice t i (min ((i : Int) + m) ((t.length : Nat) : Int))), pi, pos⟩ : Chunk)],
            (∃ x, ch.text = strip x) ∧ ch.text ≠ [] := by
          intro ch hch
          rcases List.mem_append.mp hch with hm | hm
          · exact hacc ch hm
          · have h2 : ch = ⟨strip (pySlice t i (min ((i : Int) + m) ((t.length : Nat) : Int))), pi, pos⟩ := by
              simpa using hm
            subst h2
            exact ⟨⟨pySlice t i (min ((i : Int) + m) ((t.length : Nat) : Int)), rfl⟩, hne⟩
        by_cases hend : ((t.length : Nat) : Int) ≤ min ((i : Int) + m) ((t.length : Nat) : Int)
        · rw [if_pos hend] at h
          have h2 := Option.some.inj h
          subst h2
          exact hacc2
        · rw [if_neg hend] at h
          exact ih _ _ _ _ hacc2 h
    · rw [if_neg hi] at h
      have h2 := Option.some.inj h
      subst h2
      exact hacc

/-- C7: when the raw sliding-window pass produces at least two chunks and the
last one is shorter than `min_chars`, the final chunk count is reduced by one:
the last chunk is merged into its predecessor with a single newline separator
and no trimming loss, the merged chunk keeps the predecessor's position and
page index, and the merged text length is the sum of the two source lengths
plus one separator character. -/
theorem tail_merge (fuel : Nat) (text : List Char) (max_chars min_chars overlap_chars : Int)
    (pi : Option Int) (p : Nat) (raw : List Chunk) (prev last : Chunk)
    (hne : ¬ (normalize_text text).isEmpty = true)
    (hlong : ¬ ((normalize_text text).length : Int) ≤ max_chars)
    (hraw : chunkLoop (normalize_text text) max_chars overlap_chars pi fuel 0 p [] = some raw)
    (hprev : raw.dropLast.getLast? = some prev)
    (hlast : raw.getLast? = some last)
    (hshort : (last.text.length : Int) < min_chars) :
    chunk_text_by_chars fuel text max_chars min_chars overlap_chars pi p =
      some (raw.dropLast.dropLast ++
        [⟨prev.text ++ '\n' :: last.text, prev.page_index, prev.position⟩]) ∧
    (raw.dropLast.dropLast ++
      [(⟨prev.text ++ '\n' :: last.text, prev.page_index, prev.position⟩ : Chunk)]).length + 1 =
      raw.length ∧
    (prev.text ++ '\n' :: last.text).length = prev.text.length + 1 + last.text.length := by
  have hinv := chunkLoop_texts (normalize_text text) max_chars overlap_chars pi
    fuel 0 p [] raw (by intro ch hch; simp at hch) hraw
  have hprev_mem : prev ∈ raw :=
    List.Sublist.mem (mem_of_getLast?_eq hprev) (List.dropLast_sublist raw)
  have hlast_mem : last ∈ raw := mem_of_getLast?_eq hlast
  obtain ⟨⟨xp, hxp⟩, hpne⟩ := hinv prev hprev_mem
  obtain ⟨⟨xl, hxl⟩, hlne⟩ := hinv last hlast_mem
  have hmerged : strip (prev.text ++ '\n' :: last.text) = prev.text ++ '\n' :: last.text := by
    cases hpt : prev.text with
    | nil => exact absurd hpt hpne
    | cons pc prest =>
      have hpc : isPySpace pc = false := by
        apply strip_head_not_space (x := xp)
        rw [← hxp, hpt]
      cases hld : last.text.getLast? with
      | none => exact absurd (List.getLast?_eq_none_iff.mp hld) hlne
      | some d =>
        have hd : isPySpace d = false := by
          apply strip_getLast?_not_space (x := xl)
          rw [← hxl]
          exact hld
        apply strip_no_op (c := pc) (d := d)
        · rfl
        · exact hpc
        · rw [List.getLast?_append]
          cases hlt : last.text with
          | nil => exact absurd hlt hlne
          | cons z zs =>
            rw [List.getLast?_cons_cons, ← hlt, hld]
            rfl
        · exact hd
  have hlen2 : 2 ≤ raw.length := by
    have h1 : raw.dropLast ≠ [] := by
      intro hcon
      rw [hcon] at hprev
      simp at hprev
    have h2 : 1 ≤ raw.dropLast.length := by
      cases hdd : raw.dropLast with
      | nil => exact absurd hdd h1
      | cons a r => simp [hdd]
    rw [List.length_dropLast] at h2
    omega
  refine ⟨?_, ?_, ?_⟩
  · simp only [chunk_text_by_chars]
    rw [if_neg hne, if_neg hlong, hraw]
    have hm : mergeTail min_chars raw = raw.dropLast.dropLast ++
        [⟨prev.text ++ '\n' :: last.text, prev.page_index, prev.position⟩] := by
      simp only [mergeTail, hlast, hprev, if_pos hshort, hmerged]
    rw [show Option.map (mergeTail min_chars) (some raw) = some (mergeTail min_chars raw)
      from rfl, hm]
  · rw [List.length_append, List.length_dropLast, List.length_dropLast]
    simp only [List.length_cons, List.length_nil]
    omega
  · rw [List.length_append]
    simp only [List.length_cons]
    omega

/-- C7 witness: a seven-character text with `max_chars = 5`, `min_chars = 3`,
`overlap_chars = 0` produces two raw windows whose second is short, and the
final result is the single merged chunk. -/
theorem tail_merge_witness :
    chunkLoop (normalize_text ['a', 'a', 'a', 'a', 'a', 'a', 'a']) 5 0 none 2 0 0 [] =
      some [⟨['a', 'a', 'a', 'a', 'a'], none, 0⟩, ⟨['a', 'a'], none, 1⟩] ∧
    chunk_text_by_chars 2 ['a', 'a', 'a', 'a', 'a', 'a', 'a'] 5 3 0 none 0 =
      some [⟨['a', 'a', 'a', 'a', 'a'] ++ '\n' :: ['a', 'a'], none, 0⟩] :=
  ⟨by decide,
    (tail_merge 2 ['a', 'a', 'a', 'a', 'a', 'a', 'a'] 5 3 0 none 0
      [⟨['a', 'a', 'a', 'a', 'a'], none, 0⟩, ⟨['a', 'a'], none, 1⟩]
      ⟨['a', 'a', 'a', 'a', 'a'], none, 0⟩ ⟨['a', 'a'], none, 1⟩
      (by decide) (by decide) (by decide) (by decide) (by decide) (by decide)).1⟩

/-! Position assignment across segments: claim C9. -/

theorem chunkLoop_positions (t : List Char) (m ov : Int) (pi : Option Int) :
    ∀ fuel i pos : Nat, ∀ acc cs : List Chunk,
      chunkLoop t m ov pi fuel i pos acc = some cs →
      ∃ k, cs.map Chunk.position = acc.map Chunk.position ++ List.range' pos k := by
  intro fuel
  induction fuel with
  | zero =>
    intro i pos acc cs h
    exact absurd h (by simp [chunkLoop])
  | succ g ih =>
    intro i pos acc cs h
    rw [chunkLoop] at h
    by_cases hi : i < t.length
    · rw [if_pos hi] at h
      by_cases hpe : (strip (pySlice t i (min ((i : Int) + m) ((t.length : Nat) : Int)))).isEmpty
      · simp only [hpe, Bool.not_true, if_false] at h
        by_cases hend : ((t.length : Nat) : Int) ≤ min ((i : Int) + m) ((t.length : Nat) : Int)
        · rw [if_pos hend] at h
          have h2 := Option.some.inj h
          subst h2
          exact ⟨0, by simp⟩
        · rw [if_neg hend] at h
          exact ih _ _ _ _ h
      · simp only [hpe, Bool.not_false, if_true] at h
        by_cases hend : ((t.length : Nat) : Int) ≤ min ((i : Int) + m) ((t.length : Nat) : Int)
        · rw [if_pos hend] at h
          have h2 := Option.some.inj h
          subst h2
          refine ⟨1, ?_⟩
          rw [List.map_append]
          rfl
        · rw [if_neg hend] at h
          obtain ⟨k, hk⟩ := ih _ _ _ _ h
          refine ⟨k + 1, ?_⟩
          rw [hk, List.map_append, List.range'_succ]
          simp [List.append_assoc]
    · rw [if_neg hi] at h
      have h2 := Option.some.inj h
      subst h2
      exact ⟨0, by simp⟩

theorem mergeTail_cases (mi : Int) (cs : List Chunk) :
    mergeTail mi cs = cs ∨
    ∃ prev last, cs.dropLast.getLast? = some prev ∧ cs.getLast? = some last ∧
      mergeTail mi cs = cs.dropLast.dropLast ++
        [⟨strip (prev.text ++ '\n' :: last.text), prev.page_index, prev.position⟩] := by
  cases hl : cs.getLast? with
  | none => exact Or.inl (by simp [mergeTail, hl])
  | some last =>
    cases hp : cs.dropLast.getLast? with
    | none => exact Or.inl (by simp [mergeTail, hl, hp])
    | some prev =>
      by_cases hs : (last.text.length : Int) < mi
      · exact Or.inr ⟨prev, last, rfl, rfl, by simp [mergeTail, hl, hp, hs]⟩
      · exact Or.inl (by simp [mergeTail, hl, hp, hs])

theorem dropLast_range' (s n : Nat) : (List.range' s n).dropLast = List.range' s (n - 1) := by
  cases n with
  | zero => rfl
  | succ m =>
    rw [List.range'_concat, List.dropLast_concat]
    simp

/-- Positions of a full chunking run form the contiguous block starting at
`start_position`. -/
theorem chunk_positions (fuel : Nat) (text : List Char) (m mi ov : Int) (pi : Option Int)
    (p : Nat) (cs : List Chunk)
    (h : chunk_text_by_chars fuel text m mi ov pi p = some cs) :
    cs.map Chunk.position = List.range' p cs.length := by
  simp only [chunk_text_by_chars] at h
  by_cases hne : (normalize_text text).isEmpty
  · rw [if_pos hne] at h
    have h2 := Option.some.inj h
    subst h2
    rfl
  · rw [if_neg hne] at h
    by_cases hle : ((normalize_text text).length : Int) ≤ m
    · rw [if_pos hle] at h
      have h2 := Option.some.inj h
      subst h2
      rfl
    · rw [if_neg hle] at h
      cases hloop : chunkLoop (normalize_text text) m ov pi fuel 0 p [] with
      | none =>
        rw [hloop] at h
        exact absurd h (by simp)
      | some raw =>
        rw [hloop] at h
        have hcs : mergeTail mi raw = cs := Option.some.inj h
        obtain ⟨k, hk⟩ := chunkLoop_positions _ _ _ _ fuel 0 p [] raw hloop
        rw [List.map_nil, List.nil_append] at hk
        have hklen : raw.length = k := by
          have h3 := congrArg List.length hk
          rw [List.length_map, List.length_range'] at h3
          exact h3
        rcases mergeTail_cases mi raw with hm | ⟨prev, last, hp, hl, hm⟩
        · rw [hm] at hcs
          subst hcs
          rw [hk, hklen]
        · rw [hm] at hcs
          subst hcs
          have hdl1 : raw.dropLast.map Chunk.position = List.range' p (k - 1) := by
            rw [List.map_dropLast, hk, dropLast_range']
          have hdl2 : raw.dropLast.dropLast.map Chunk.position = List.range' p (k - 2) := by
            rw [List.map_dropLast, hdl1, dropLast_range']
            congr 1
          have hk2 : 2 ≤ k := by
            have h1 : raw.dropLast ≠ [] := by
              intro hcon
              rw [hcon] at hp
              simp at hp
            have h2 : 1 ≤ raw.dropLast.length := by
              cases hdd : raw.dropLast with
              | nil => exact absurd hdd h1
              | cons a r => simp [hdd]
            rw [List.length_dropLast] at h2
            omega
          have hprevpos : prev.position = p + (k - 2) := by
            have h3 : (raw.dropLast.map Chunk.position).getLast? = some prev.position := by
              rw [List.getLast?_map, hp]
              rfl
            rw [hdl1] at h3
            have h4 : List.range' p (k - 1) = List.range' p ((k - 2) + 1) := by
              congr 1
              omega
            rw [h4, List.range'_concat, List.getLast?_concat] at h3
            have h5 := Option.some.inj h3
            omega
          rw [List.map_append, hdl2]
          have hlen : (raw.dropLast.dropLast ++
              [(⟨strip (prev.text ++ '\n' :: last.text), prev.page_index,
                prev.position⟩ : Chunk)]).length = k - 1 := by
            rw [List.length_append, List.length_dropLast, List.length_dropLast]
            simp only [List.length_cons, List.length_nil]
            omega
          rw [hlen]
          show List.range' p (k - 2) ++ [prev.position] = List.range' p (k - 1)
          rw [hprevpos]
          have h6 : List.range' p (k - 1) = List.range' p ((k - 2) + 1) := by
            congr 1
            omega
          rw [h6, List.range'_concat]
          simp

theorem build_chunk_groups_cons (fuel : Nat) (opts : ChunkingOptions) (pi0 : Option Int)
    (tx : List Char) (rest : List (Option Int × List Char)) (p : Nat) :
    build_chunk_groups fuel opts ((pi0, tx) :: rest) p =
      (chunk_text_by_chars fuel tx opts.max_chars opts.min_chars opts.overlap_chars pi0 p).bind
        fun cs => (build_chunk_groups fuel opts rest (p + cs.length)).bind
          fun more => some (cs :: more) := rfl

/-- Per-segment position bookkeeping of the assembler: the flattened chunk
positions form one contiguous block, and the first chunk of each segment sits
at the running total of the chunks emitted before it. -/
theorem build_groups_spec (fuel : Nat) (opts : ChunkingOptions) :
    ∀ segments : List (Option Int × List Char), ∀ p : Nat, ∀ gss : List (List Chunk),
      build_chunk_groups fuel opts segments p = some gss →
      (gss.flatten.map Chunk.position = List.range' p gss.flatten.length) ∧
      (∀ N : Nat, ∀ hN : N < gss.length, ∀ c : Chunk,
        (gss.get ⟨N, hN⟩).head? = some c →
        c.position = p + (((gss.take N).map List.length).sum)) := by
  intro segments
  induction segments with
  | nil =>
    intro p gss h
    have h2 : ([] : List (List Chunk)) = gss := Option.some.inj h
    subst h2
    exact ⟨rfl, fun N hN => absurd hN (by simp)⟩
  | cons seg rest ih =>
    intro p gss h
    obtain ⟨pi0, tx⟩ := seg
    rw [build_chunk_groups_cons] at h
    cases hcs : chunk_text_by_chars fuel tx opts.max_chars opts.min_chars
        opts.overlap_chars pi0 p with
    | none =>
      rw [hcs] at h
      exact absurd h (by simp)
    | some cs =>
      rw [hcs, Option.some_bind] at h
      cases hmore : build_chunk_groups fuel opts rest (p + cs.length) with
      | none =>
        rw [hmore] at h
        exact absurd h (by simp)
      | some more =>
        rw [hmore, Option.some_bind] at h
        have h3 := Option.some.inj h
        subst h3
        obtain ⟨hflat, hheads⟩ := ih (p + cs.length) more hmore
        have hcspos := chunk_positions fuel tx opts.max_chars opts.min_chars
          opts.overlap_chars pi0 p cs hcs
        constructor
        · rw [List.flatten_cons, List.map_append, hcspos, hflat, List.length_append]
          have h4 := List.range'_append p cs.length more.flatten.length 1
          simp only [one_mul] at h4
          rw [h4]
          congr 1
          omega
        · intro N hN c hc
          cases N with
          | zero =>
            rw [show ((cs :: more).get ⟨0, hN⟩) = cs from rfl] at hc
            have h4 : (cs.map Chunk.position).head? = some c.position := by
              rw [List.head?_map, hc]
              rfl
            rw [hcspos] at h4
            cases hcl : cs.length with
            | zero =>
              rw [hcl] at h4
              simp at h4
            | succ m2 =>
              rw [hcl, List.range'_succ] at h4
              have h5 := Option.some.inj h4
              simp only [List.take_zero, List.map_nil, List.sum_nil]
              omega
          | succ N2 =>
            have hN2 : N2 < more.length := by simpa using hN
            have hc2 : (more.get ⟨N2, hN2⟩).head? = some c := by
              rw [List.get_cons_succ] at hc
              exact hc
            have h6 := hheads N2 hN2 c hc2
            rw [List.take_succ_cons, List.map_cons, List.sum_cons]
            omega

/-- C9: for every ordered segment list, the first chunk of segment N sits at
the position equal to the total chunk count of segments 0..N-1, and the
positions across the assembled IndexDocuments are strictly increasing, hence
globally unique per resource. -/
theorem position_monotonicity (fuel : Nat) (opts : ChunkingOptions) (meta : ResourceMeta)
    (sk : String) (segments : List (Option Int × List Char)) (gss : List (List Chunk))
    (h : build_chunk_groups fuel opts segments 0 = some gss) :
    build_chunk_docs fuel meta sk segments opts =
      some ((gss.flatten).map (toDoc meta sk), []) ∧
    (∀ N : Nat, ∀ hN : N < gss.length, ∀ c : Chunk, (gss.get ⟨N, hN⟩).head? = some c →
      c.position = (((gss.take N).map List.length).sum)) ∧
    (((gss.flatten).map (toDoc meta sk)).map EsDoc.position).Pairwise (· < ·) := by
  obtain ⟨hflat, hheads⟩ := build_groups_spec fuel opts segments 0 gss h
  refine ⟨?_, ?_, ?_⟩
  · rw [build_chunk_docs, h]
    rfl
  · intro N hN c hc
    have h2 := hheads N hN c hc
    omega
  · have h3 : ((gss.flatten.map (toDoc meta sk)).map EsDoc.position) =
        gss.flatten.map Chunk.position := by
      rw [List.map_map]
      exact List.map_congr_left fun c _ => rfl
    rw [h3, hflat]
    exact List.pairwise_lt_range' 0 _ 1 (by norm_num)

/-- C9 witness: two one-chunk segments; the second segment's first chunk is
assigned position 1, and the document positions strictly increase. -/
theorem position_monotonicity_witness :
    build_chunk_groups 0 {} [(some 0, ['a', 'b']), (some 1, ['c', 'd'])] 0 =
      some [[⟨['a', 'b'], some 0, 0⟩], [⟨['c', 'd'], some 1, 1⟩]] ∧
    ((([[⟨['a', 'b'], some 0, 0⟩], [⟨['c', 'd'], some 1, 1⟩]] : List (List Chunk)).flatten.map
      (toDoc ⟨3, "document", none, [], "todo", false, none⟩ "document_text")).map
        EsDoc.position).Pairwise (· < ·) :=
  ⟨rfl, (position_monotonicity 0 {} ⟨3, "document", none, [], "todo", false, none⟩
    "document_text" [(some 0, ['a', 'b']), (some 1, ['c', 'd'])]
    [[⟨['a', 'b'], some 0, 0⟩], [⟨['c', 'd'], some 1, 1⟩]] rfl).2.2⟩

end Collecta
